import Mathlib

/-!
Verification of the IsaacSim-Custom-changes utility scripts.

Shallow embedding conventions:
* Python floats are modelled as rationals (`ℚ`); canvas coordinates,
  meters and scales are exact rational arithmetic.
* `round(x, 3)` is modelled by `round3` (round to the nearest
  thousandth).  Python uses round-half-to-even at exact ties; the two
  agree everywhere except exact half-thousandths and satisfy the same
  error bound `|round3 q - q| ≤ 1/2000`, which is the only property the
  round-trip claims rely on.
* JSON dictionaries are association lists `List (String × JsonVal)`
  with typed values (`num`/`str`), matching how the GUI actually
  populates them.
* File contents are lists of lines, each line a `List Char` (including
  its trailing newline character, as produced by `readlines`).
-/

namespace WarehouseGenerator

/-- A JSON value as used by the rack layout files: a number or a string. -/
inductive JsonVal where
  | num : ℚ → JsonVal
  | str : String → JsonVal
deriving DecidableEq

/-- `round(q, 3)`: round to the nearest thousandth. -/
def round3 (q : ℚ) : ℚ := (round (q * 1000) : ℤ) / 1000

/-- `warehouse_generator.Rack`: a single rack with canvas position,
real-world dimensions, rotation and type (`canvas_id` is a GUI handle
and not part of the data model). -/
structure Rack where
  x : ℚ
  y : ℚ
  width_m : ℚ
  depth_m : ℚ
  rotation : ℚ
  rack_type : String
deriving DecidableEq

/-- `Rack.to_dict(origin_x_m, origin_y_m, scale)`: canvas pixels are
divided by the scale to get meters, shifted by the origin to get world
coordinates, rounded to 3 decimals, and the x/y axes are swapped. -/
def Rack.to_dict (r : Rack) (origin_x_m origin_y_m scale : ℚ) :
    List (String × JsonVal) :=
  let x_m := r.x / scale
  let y_m := r.y / scale
  let world_x := x_m - origin_x_m
  let world_y := y_m - origin_y_m
  [("type", .str r.rack_type),
   ("x", .num (round3 world_y)),
   ("y", .num (round3 world_x)),
   ("width_m", .num r.width_m),
   ("depth_m", .num r.depth_m),
   ("rotation", .num r.rotation)]

/-- `Rack.from_dict(data, origin_x_m, origin_y_m, scale)`: swap the
axes back and convert world coordinates to canvas pixels.  The fields
`x`, `y`, `width_m`, `depth_m` are required (Python raises `KeyError`
when absent, modelled by `none`); `rotation` defaults to `0` and
`type` to `"SmallRack"` via `dict.get`. -/
def Rack.from_dict (data : List (String × JsonVal))
    (origin_x_m origin_y_m scale : ℚ) : Option Rack :=
  match data.lookup "x", data.lookup "y",
        data.lookup "width_m", data.lookup "depth_m" with
  | some (.num jx), some (.num jy), some (.num w), some (.num d) =>
    let world_x := jy
    let world_y := jx
    let x_m := world_x + origin_x_m
    let y_m := world_y + origin_y_m
    some { x := x_m * scale, y := y_m * scale, width_m := w, depth_m := d,
           rotation := match data.lookup "rotation" with
                       | some (.num rot) => rot
                       | _ => 0,
           rack_type := match data.lookup "type" with
                        | some (.str t) => t
                        | _ => "SmallRack" }
  | _, _, _, _ => none

/-- A serialized waypoint record, a JSON object with fields `x` and `y`. -/
structure WpRecord where
  x : ℚ
  y : ℚ
deriving DecidableEq

/-- `WarehouseDesigner.waypoints_to_dict`: each waypoint's canvas
pixels are converted to meters, shifted by the origin, axes swapped,
and rounded to 3 decimals. -/
def waypoints_to_dict (waypoints : List (ℚ × ℚ))
    (origin_x_m origin_y_m scale : ℚ) : List WpRecord :=
  waypoints.map (fun p =>
    let x_m := p.1 / scale
    let y_m := p.2 / scale
    let world_x := x_m - origin_x_m
    let world_y := y_m - origin_y_m
    { x := round3 world_y, y := round3 world_x })

/-- `WarehouseDesigner.waypoints_from_dict`: swap the axes back and
convert world coordinates to canvas pixels. -/
def waypoints_from_dict (ws : List WpRecord)
    (origin_x_m origin_y_m scale : ℚ) : List (ℚ × ℚ) :=
  ws.map (fun wp =>
    let world_x := wp.y
    let world_y := wp.x
    let x_m := world_x + origin_x_m
    let y_m := world_y + origin_y_m
    (x_m * scale, y_m * scale))

/-- Rounding to 3 decimals moves a rational by at most `1/2000`. -/
theorem round3_err (q : ℚ) : |round3 q - q| ≤ 1 / 2000 := by
  have h := abs_sub_round (q * 1000)
  have h2 : round3 q - q = ((round (q * 1000) : ℤ) - q * 1000) / 1000 := by
    unfold round3; ring
  rw [h2, abs_div]
  rw [show |(1000 : ℚ)| = 1000 by norm_num]
  rw [abs_sub_comm] at h
  linarith

/-- Converting a canvas coordinate to an origin-relative world
coordinate, rounding to 3 decimals, and converting back moves the
canvas coordinate by at most `scale/2000` pixels. -/
theorem roundtrip_coord (v o s : ℚ) (hs : 0 < s) :
    |(round3 (v / s - o) + o) * s - v| ≤ s / 2000 := by
  have hne : s ≠ 0 := ne_of_gt hs
  have key : (round3 (v / s - o) + o) * s - v
      = (round3 (v / s - o) - (v / s - o)) * s := by
    field_simp
    ring
  rw [key, abs_mul, abs_of_pos hs]
  have h := round3_err (v / s - o)
  calc |round3 (v / s - o) - (v / s - o)| * s
      ≤ 1 / 2000 * s := mul_le_mul_of_nonneg_right h (le_of_lt hs)
    _ = s / 2000 := by ring

/-- Deserializing a serialized rack recovers it up to the coordinate
rounding error. -/
theorem from_to_dict_eq (r : Rack) (ox oy s : ℚ) :
    Rack.from_dict (Rack.to_dict r ox oy s) ox oy s =
      some { x := (round3 (r.x / s - ox) + ox) * s,
             y := (round3 (r.y / s - oy) + oy) * s,
             width_m := r.width_m, depth_m := r.depth_m,
             rotation := r.rotation, rack_type := r.rack_type } := rfl

/-- C1: serialization round-trips.  `Rack.from_dict ∘ Rack.to_dict`
preserves `width_m`, `depth_m`, `rotation` and `rack_type` exactly and
reproduces the canvas coordinates up to the error introduced by
rounding world coordinates to 3 decimals, at most `0.0005 * scale`
pixels per axis; `waypoints_from_dict ∘ waypoints_to_dict` restores
every waypoint's canvas pixel coordinates up to the same bound. -/
theorem serialization_roundtrip (r : Rack) (wps : List (ℚ × ℚ))
    (ox oy s : ℚ) (hs : 0 < s) :
    (∃ r2, Rack.from_dict (Rack.to_dict r ox oy s) ox oy s = some r2 ∧
      r2.width_m = r.width_m ∧ r2.depth_m = r.depth_m ∧
      r2.rotation = r.rotation ∧ r2.rack_type = r.rack_type ∧
      |r2.x - r.x| ≤ s / 2000 ∧ |r2.y - r.y| ≤ s / 2000) ∧
    List.Forall₂ (fun q p : ℚ × ℚ =>
        |q.1 - p.1| ≤ s / 2000 ∧ |q.2 - p.2| ≤ s / 2000)
      (waypoints_from_dict (waypoints_to_dict wps ox oy s) ox oy s) wps := by
  constructor
  · exact ⟨_, from_to_dict_eq r ox oy s, rfl, rfl, rfl, rfl,
      roundtrip_coord r.x ox s hs, roundtrip_coord r.y oy s hs⟩
  · induction wps with
    | nil => exact List.Forall₂.nil
    | cons p t ih =>
      exact List.Forall₂.cons
        ⟨roundtrip_coord p.1 ox s hs, roundtrip_coord p.2 oy s hs⟩ ih

/-- Witness for C1 at a concrete rack, waypoint list and scale. -/
theorem serialization_roundtrip_witness :
    (0 : ℚ) < 50 ∧
    ((∃ r2, Rack.from_dict
        (Rack.to_dict ⟨100, 200, 2, 1, 90, "SmallRack"⟩ 15 10 50) 15 10 50
          = some r2 ∧
      r2.width_m = Rack.width_m ⟨100, 200, 2, 1, 90, "SmallRack"⟩ ∧
      r2.depth_m = Rack.depth_m ⟨100, 200, 2, 1, 90, "SmallRack"⟩ ∧
      r2.rotation = Rack.rotation ⟨100, 200, 2, 1, 90, "SmallRack"⟩ ∧
      r2.rack_type = Rack.rack_type ⟨100, 200, 2, 1, 90, "SmallRack"⟩ ∧
      |r2.x - Rack.x ⟨100, 200, 2, 1, 90, "SmallRack"⟩| ≤ 50 / 2000 ∧
      |r2.y - Rack.y ⟨100, 200, 2, 1, 90, "SmallRack"⟩| ≤ 50 / 2000) ∧
    List.Forall₂ (fun q p : ℚ × ℚ =>
        |q.1 - p.1| ≤ 50 / 2000 ∧ |q.2 - p.2| ≤ 50 / 2000)
      (waypoints_from_dict (waypoints_to_dict [(50, 75)] 15 10 50) 15 10 50)
      [(50, 75)]) :=
  ⟨by norm_num,
   serialization_roundtrip ⟨100, 200, 2, 1, 90, "SmallRack"⟩ [(50, 75)]
     15 10 50 (by norm_num)⟩

/-- C2: the pixel-to-world transform swaps the axes.  The serialized
field `x` is `round3 (canvas_y / scale - origin_y_m)` and the field
`y` is `round3 (canvas_x / scale - origin_x_m)`, both for racks and
for every waypoint. -/
theorem pixel_to_world_axis_swap (r : Rack) (wps : List (ℚ × ℚ))
    (ox oy s : ℚ) :
    (Rack.to_dict r ox oy s).lookup "x"
        = some (.num (round3 (r.y / s - oy))) ∧
    (Rack.to_dict r ox oy s).lookup "y"
        = some (.num (round3 (r.x / s - ox))) ∧
    List.Forall₂ (fun (w : WpRecord) (p : ℚ × ℚ) =>
        w.x = round3 (p.2 / s - oy) ∧ w.y = round3 (p.1 / s - ox))
      (waypoints_to_dict wps ox oy s) wps := by
  refine ⟨rfl, rfl, ?_⟩
  induction wps with
  | nil => exact List.Forall₂.nil
  | cons p t ih => exact List.Forall₂.cons ⟨rfl, rfl⟩ ih

/-- C5: a rack record is a flat object with exactly the six fields
`type`, `x`, `y`, `width_m`, `depth_m`, `rotation`, and `from_dict`
succeeds on any record in which the required fields are present
(numeric `x`, `y`, `width_m`, `depth_m`; `rotation` and `type` are
read with defaults), with no further validation. -/
theorem rack_record_flat (r : Rack) (ox oy s : ℚ)
    (d : List (String × JsonVal)) (jx jy w dep : ℚ)
    (hx : d.lookup "x" = some (.num jx))
    (hy : d.lookup "y" = some (.num jy))
    (hw : d.lookup "width_m" = some (.num w))
    (hd : d.lookup "depth_m" = some (.num dep)) :
    (Rack.to_dict r ox oy s).map Prod.fst
        = ["type", "x", "y", "width_m", "depth_m", "rotation"] ∧
    (Rack.from_dict d ox oy s).isSome := by
  refine ⟨rfl, ?_⟩
  simp [Rack.from_dict, hx, hy, hw, hd]

/-- Witness for C5 at a concrete six-field record. -/
theorem rack_record_flat_witness :
    (Rack.to_dict ⟨0, 0, 1, 1, 0, "SmallRack"⟩ 0 0 1).map Prod.fst
        = ["type", "x", "y", "width_m", "depth_m", "rotation"] ∧
    (Rack.from_dict
      [("type", JsonVal.str "SmallRack"), ("x", JsonVal.num 1),
       ("y", JsonVal.num 2), ("width_m", JsonVal.num 3),
       ("depth_m", JsonVal.num 4), ("rotation", JsonVal.num 0)]
      0 0 1).isSome :=
  rack_record_flat ⟨0, 0, 1, 1, 0, "SmallRack"⟩ 0 0 1
    [("type", JsonVal.str "SmallRack"), ("x", JsonVal.num 1),
     ("y", JsonVal.num 2), ("width_m", JsonVal.num 3),
     ("depth_m", JsonVal.num 4), ("rotation", JsonVal.num 0)]
    1 2 3 4 rfl rfl rfl rfl

/-- Python's `%` on rationals with a positive modulus:
`a - b * ⌊a / b⌋`, whose sign follows the divisor. -/
def pymod (a b : ℚ) : ℚ := a - b * ⌊a / b⌋

/-- `WarehouseDesigner.apply_rotation_to_selected` restricted to the
selected rack: `entry` is the parsed value of the rotation text field
(`none` models an unparseable entry, whose `ValueError` is caught
leaving the rack unchanged); on success the rack's rotation becomes
the parsed value modulo 360. -/
def apply_rotation_to_selected (r : Rack) (entry : Option ℚ) : Rack :=
  match entry with
  | some new_rotation => { r with rotation := pymod new_rotation 360 }
  | none => r

/-- C9: after a successful `apply_rotation_to_selected` with parsed
value `v`, the rack's rotation is `v mod 360`, hence in `[0, 360)`,
and every other field of the rack is unchanged. -/
theorem apply_rotation_normalizes (r : Rack) (v : ℚ) :
    (apply_rotation_to_selected r (some v)).rotation = pymod v 360 ∧
    0 ≤ (apply_rotation_to_selected r (some v)).rotation ∧
    (apply_rotation_to_selected r (some v)).rotation < 360 ∧
    (apply_rotation_to_selected r (some v)).x = r.x ∧
    (apply_rotation_to_selected r (some v)).y = r.y ∧
    (apply_rotation_to_selected r (some v)).width_m = r.width_m ∧
    (apply_rotation_to_selected r (some v)).depth_m = r.depth_m ∧
    (apply_rotation_to_selected r (some v)).rack_type = r.rack_type := by
  have hf := Int.floor_le (v / 360)
  have hc := Int.lt_floor_add_one (v / 360)
  refine ⟨rfl, ?_, ?_, rfl, rfl, rfl, rfl, rfl⟩
  · show (0 : ℚ) ≤ pymod v 360
    unfold pymod
    linarith
  · show pymod v 360 < 360
    unfold pymod
    linarith

/-- The designer state touched by `update_scale`: the current scale in
pixels per meter, the racks and the path waypoints. -/
structure DesignerState where
  scale : ℚ
  racks : List Rack
  waypoints : List (ℚ × ℚ)
deriving DecidableEq

/-- `WarehouseDesigner.update_scale`: `entry` is the parsed scale text
(`none` models an unparseable entry).  An unparseable or out-of-range
value raises `ValueError`, which is caught leaving the state
unchanged; otherwise every rack and waypoint canvas position is
multiplied by `new_scale / old_scale`. -/
def update_scale (st : DesignerState) (entry : Option ℚ) : DesignerState :=
  match entry with
  | none => st
  | some new_scale =>
    if new_scale < 10 ∨ new_scale > 200 then st
    else
      let scale_factor := new_scale / st.scale
      { scale := new_scale,
        racks := st.racks.map (fun r =>
          { r with x := r.x * scale_factor, y := r.y * scale_factor }),
        waypoints := st.waypoints.map (fun p =>
          (p.1 * scale_factor, p.2 * scale_factor)) }

/-- C10: an accepted scale change (`10 ≤ new ≤ 200`) preserves every
rack's and waypoint's position in meters (canvas coordinate divided by
the current scale); an out-of-range or unparseable scale leaves the
scale and all positions unchanged. -/
theorem update_scale_preserves_geometry (st : DesignerState)
    (hs : 0 < st.scale) :
    (∀ ns : ℚ, 10 ≤ ns → ns ≤ 200 →
      (update_scale st (some ns)).scale = ns ∧
      (update_scale st (some ns)).racks.map (fun r =>
          (r.x / (update_scale st (some ns)).scale,
           r.y / (update_scale st (some ns)).scale))
        = st.racks.map (fun r => (r.x / st.scale, r.y / st.scale)) ∧
      (update_scale st (some ns)).waypoints.map (fun p =>
          (p.1 / (update_scale st (some ns)).scale,
           p.2 / (update_scale st (some ns)).scale))
        = st.waypoints.map (fun p => (p.1 / st.scale, p.2 / st.scale))) ∧
    (∀ ns : ℚ, ns < 10 ∨ ns > 200 → update_scale st (some ns) = st) ∧
    update_scale st none = st := by
  have hsne : st.scale ≠ 0 := ne_of_gt hs
  refine ⟨?_, ?_, rfl⟩
  · intro ns h10 h200
    have hno : ¬(ns < 10 ∨ ns > 200) := by
      push_neg
      exact ⟨by linarith, by linarith⟩
    have hnsne : ns ≠ 0 := by positivity
    refine ⟨by simp [update_scale, hno], ?_, ?_⟩
    · simp only [update_scale, hno, if_false, List.map_map]
      refine List.map_congr_left ?_
      intro r _
      simp only [Function.comp, Prod.mk.injEq]
      constructor <;> · field_simp; ring
    · simp only [update_scale, hno, if_false, List.map_map]
      refine List.map_congr_left ?_
      intro p _
      simp only [Function.comp, Prod.mk.injEq]
      constructor <;> · field_simp; ring
  · intro ns hout
    simp [update_scale, hout]

/-- Witness for C10 at a concrete state and scale. -/
theorem update_scale_preserves_geometry_witness :
    (update_scale ⟨50, [⟨100, 200, 2, 1, 0, "SmallRack"⟩], [(50, 75)]⟩
        (some 100)).scale = 100 ∧
    update_scale ⟨50, [⟨100, 200, 2, 1, 0, "SmallRack"⟩], [(50, 75)]⟩ none
      = ⟨50, [⟨100, 200, 2, 1, 0, "SmallRack"⟩], [(50, 75)]⟩ :=
  ⟨((update_scale_preserves_geometry
      ⟨50, [⟨100, 200, 2, 1, 0, "SmallRack"⟩], [(50, 75)]⟩
      (by norm_num)).1 100 (by norm_num) (by norm_num)).1,
   (update_scale_preserves_geometry
      ⟨50, [⟨100, 200, 2, 1, 0, "SmallRack"⟩], [(50, 75)]⟩
      (by norm_num)).2.2⟩

end WarehouseGenerator

namespace ChangeArgInYaml

/-- Whitespace characters matched by the regex class `\s` (ASCII
range: space, tab, newline, carriage return, vertical tab, form
feed). -/
def isWs (c : Char) : Bool :=
  c = ' ' || c = '\t' || c = '\n' || c = '\r' ||
  c = Char.ofNat 11 || c = Char.ofNat 12

/-- The regex tail `\S*:` starting at a given suffix: a colon is
reached before any whitespace character. -/
def colonAfter : List Char → Bool
  | [] => false
  | c :: cs => if c = ':' then true else if isWs c then false else colonAfter cs

/-- The regex `\S*{name}\S*:` anchored inside the first non-whitespace
run: scanning over non-whitespace characters, `name` occurs and is
followed by `\S*:`. -/
def scanFrom (name : List Char) : List Char → Bool
  | [] => false
  | c :: cs =>
    (name.isPrefixOf (c :: cs) && colonAfter ((c :: cs).drop name.length)) ||
    (!isWs c && scanFrom name cs)

/-- `re.search(rf"^\s*\S*{param_name}\S*:.*$", line)` for one line of
the file, for a parameter name containing no whitespace and no regex
metacharacters: leading whitespace, then any amount of non-whitespace
on either side of the name, then a colon, then the rest of the line. -/
def lineMatches (name line : List Char) : Bool :=
  scanFrom name (line.dropWhile isWs)

/-- `line.index(c)`: the index of the first occurrence of `c`. -/
def indexOf (c : Char) (l : List Char) : Nat := l.findIdx (fun x => x = c)

/-- The replacement line built by `replace_parameter`: the text up to
and including the first colon, a space, the new value, then a space
plus the text from the first `#` onward when the line contains one,
otherwise a newline. -/
def rewriteLine (new_value line : List Char) : List Char :=
  let colon_index := indexOf ':' line
  if line.contains '#' then
    let comment_index := indexOf '#' line
    line.take (colon_index + 1) ++ ' ' :: new_value ++ ' ' :: line.drop comment_index
  else
    line.take (colon_index + 1) ++ ' ' :: new_value ++ ['\n']

/-- The scan performed by `replace_parameter`'s loop: each line is
tested against the current head component; a match on a non-terminal
component advances to the next component from the next line; a match
on the terminal component stops the scan at that line's index.  `none`
when the ordered search fails.  (An empty component list cannot arise:
`str.split(".")` never returns an empty list.) -/
def findMatchIdx : List (List Char) → List (List Char) → Option Nat
  | _, [] => none
  | [], _ :: _ => none
  | [p], l :: ls =>
      if lineMatches p l then some 0
      else (findMatchIdx [p] ls).map (· + 1)
  | p :: q :: rest, l :: ls =>
      if lineMatches p l then (findMatchIdx (q :: rest) ls).map (· + 1)
      else (findMatchIdx (p :: q :: rest) ls).map (· + 1)

/-- `replace_parameter` acting on the file's lines (the file is
rewritten only when a replacement was made; `new_value` is the value
string, the first argument of the list pair the parameter path already
split on `.`/`:`). -/
def replace_parameter (new_value : List Char) :
    List (List Char) → List (List Char) → List (List Char)
  | _, [] => []
  | [], l :: ls => l :: ls
  | [p], l :: ls =>
      if lineMatches p l then rewriteLine new_value l :: ls
      else l :: replace_parameter new_value [p] ls
  | p :: q :: rest, l :: ls =>
      if lineMatches p l then l :: replace_parameter new_value (q :: rest) ls
      else l :: replace_parameter new_value (p :: q :: rest) ls

/-- The claim's hypothesis: the parameter path components match a
strictly increasing sequence of lines in order, the terminal component
matching last. -/
inductive OrderedMatch : List (List Char) → List (List Char) → Prop where
  | last {p l ls} : lineMatches p l = true → OrderedMatch [p] (l :: ls)
  | step {p q rest l ls} : lineMatches p l = true →
      OrderedMatch (q :: rest) ls → OrderedMatch (p :: q :: rest) (l :: ls)
  | skip {tree l ls} : OrderedMatch tree ls → OrderedMatch tree (l :: ls)

/-- An ordered match for a longer path restricts to one for its tail. -/
theorem orderedMatch_drop_head {tree lines : List (List Char)}
    (h : OrderedMatch tree lines) :
    ∀ p q rest, tree = p :: q :: rest → OrderedMatch (q :: rest) lines := by
  induction h with
  | last _ => intro p q rest heq; simp at heq
  | step hm hsub _ =>
    intro p q rest heq
    obtain ⟨-, h2⟩ := List.cons.injEq .. ▸ heq
    exact OrderedMatch.skip (h2 ▸ hsub)
  | skip _ ih =>
    intro p q rest heq
    exact OrderedMatch.skip (ih p q rest heq)

/-- An ordered match needs at least one path component. -/
theorem orderedMatch_ne_nil {tree lines : List (List Char)}
    (h : OrderedMatch tree lines) : tree ≠ [] := by
  induction h with
  | last _ => simp
  | step _ _ _ => simp
  | skip _ ih => exact ih

/-- Completeness of the greedy scan: whenever an ordered match exists,
`findMatchIdx` finds a line. -/
theorem findMatchIdx_isSome_of_orderedMatch :
    ∀ (lines tree : List (List Char)), OrderedMatch tree lines →
      (findMatchIdx tree lines).isSome := by
  intro lines
  induction lines with
  | nil => intro tree h; cases h
  | cons l ls ih =>
    intro tree h
    match tree with
    | [] => exact absurd rfl (orderedMatch_ne_nil h)
    | [p] =>
      by_cases hm : lineMatches p l = true
      · simp [findMatchIdx, hm]
      · cases h with
        | last hml => exact absurd hml hm
        | skip hsub =>
          simp only [findMatchIdx, if_neg hm, Option.isSome_map']
          exact ih [p] hsub
    | p :: q :: rest =>
      by_cases hm : lineMatches p l = true
      · simp only [findMatchIdx, if_pos hm, Option.isSome_map']
        cases h with
        | step hml hsub => exact ih (q :: rest) hsub
        | skip hsub =>
          exact ih (q :: rest) (orderedMatch_drop_head hsub p q rest rfl)
      · simp only [findMatchIdx, if_neg hm, Option.isSome_map']
        cases h with
        | step hml _ => exact absurd hml hm
        | skip hsub => exact ih (p :: q :: rest) hsub

/-- Soundness of the greedy scan: a found line yields an ordered match. -/
theorem orderedMatch_of_findMatchIdx :
    ∀ (lines tree : List (List Char)) (i : Nat),
      findMatchIdx tree lines = some i → OrderedMatch tree lines := by
  intro lines
  induction lines with
  | nil => intro tree i h; simp [findMatchIdx] at h
  | cons l ls ih =>
    intro tree i h
    match tree with
    | [] => simp [findMatchIdx] at h
    | [p] =>
      by_cases hm : lineMatches p l = true
      · exact OrderedMatch.last hm
      · simp only [findMatchIdx, if_neg hm, Option.map_eq_some'] at h
        obtain ⟨j, hj, -⟩ := h
        exact OrderedMatch.skip (ih [p] j hj)
    | p :: q :: rest =>
      by_cases hm : lineMatches p l = true
      · simp only [findMatchIdx, if_pos hm, Option.map_eq_some'] at h
        obtain ⟨j, hj, -⟩ := h
        exact OrderedMatch.step hm (ih (q :: rest) j hj)
      · simp only [findMatchIdx, if_neg hm, Option.map_eq_some'] at h
        obtain ⟨j, hj, -⟩ := h
        exact OrderedMatch.skip (ih (p :: q :: rest) j hj)

/-- When the scan stops at index `i`, exactly line `i` is rewritten:
the result is `lines.set i (rewriteLine …)` and the terminal path
component matches line `i`. -/
theorem replace_parameter_eq_set (v : List Char) :
    ∀ (lines tree : List (List Char)) (i : Nat),
      findMatchIdx tree lines = some i →
      ∃ hi : i < lines.length,
        replace_parameter v tree lines
          = lines.set i (rewriteLine v (lines.get ⟨i, hi⟩)) ∧
        ∃ p, tree.getLast? = some p ∧
          lineMatches p (lines.get ⟨i, hi⟩) = true := by
  intro lines
  induction lines with
  | nil => intro tree i h; simp [findMatchIdx] at h
  | cons l ls ih =>
    intro tree i h
    match tree with
    | [] => simp [findMatchIdx] at h
    | [p] =>
      by_cases hm : lineMatches p l = true
      · simp only [findMatchIdx, if_pos hm, Option.some.injEq] at h
        subst h
        refine ⟨Nat.succ_pos _, ?_, p, rfl, hm⟩
        simp only [replace_parameter, if_pos hm]
        rfl
      · simp only [findMatchIdx, if_neg hm, Option.map_eq_some'] at h
        obtain ⟨j, hj, rfl⟩ := h
        obtain ⟨hjlt, heq, p2, hp2, hm2⟩ := ih [p] j hj
        refine ⟨Nat.succ_lt_succ hjlt, ?_, p2, hp2, hm2⟩
        simp only [replace_parameter, if_neg hm]
        rw [heq]
        rfl
    | p :: q :: rest =>
      by_cases hm : lineMatches p l = true
      · simp only [findMatchIdx, if_pos hm, Option.map_eq_some'] at h
        obtain ⟨j, hj, rfl⟩ := h
        obtain ⟨hjlt, heq, p2, hp2, hm2⟩ := ih (q :: rest) j hj
        refine ⟨Nat.succ_lt_succ hjlt, ?_,
          p2, by rw [List.getLast?_cons_cons]; exact hp2, hm2⟩
        simp only [replace_parameter, if_pos hm]
        rw [heq]
        rfl
      · simp only [findMatchIdx, if_neg hm, Option.map_eq_some'] at h
        obtain ⟨j, hj, rfl⟩ := h
        obtain ⟨hjlt, heq, p2, hp2, hm2⟩ := ih (p :: q :: rest) j hj
        refine ⟨Nat.succ_lt_succ hjlt, ?_, p2, hp2, hm2⟩
        simp only [replace_parameter, if_neg hm]
        rw [heq]
        rfl

/-- When the scan fails, the file content is left unchanged. -/
theorem replace_parameter_of_none (v : List Char) :
    ∀ (lines tree : List (List Char)),
      findMatchIdx tree lines = none → replace_parameter v tree lines = lines := by
  intro lines
  induction lines with
  | nil =>
    intro tree _
    rcases tree with _ | ⟨p, _ | ⟨q, rest⟩⟩ <;> rfl
  | cons l ls ih =>
    intro tree h
    match tree with
    | [] => rfl
    | [p] =>
      by_cases hm : lineMatches p l = true
      · simp [findMatchIdx, hm] at h
      · simp only [findMatchIdx, if_neg hm, Option.map_eq_none'] at h
        simp only [replace_parameter, if_neg hm]
        rw [ih [p] h]
    | p :: q :: rest =>
      by_cases hm : lineMatches p l = true
      · simp only [findMatchIdx, if_pos hm, Option.map_eq_none'] at h
        simp only [replace_parameter, if_pos hm]
        rw [ih (q :: rest) h]
      · simp only [findMatchIdx, if_neg hm, Option.map_eq_none'] at h
        simp only [replace_parameter, if_neg hm]
        rw [ih (p :: q :: rest) h]

/-- C3: `replace_parameter` rewrites exactly one line.  Whenever the
path components match lines in order (the terminal one matching some
line against `^\s*\S*{name}\S*:.*$`), a single matched line is
replaced by `rewriteLine` — its prefix up to and including the first
colon, a space, the new value, then a space plus the text from the
first `#` onward when the line has a comment, otherwise a newline —
and every other line of the file is unchanged. -/
theorem replace_parameter_rewrites_one_line
    (new_value : List Char) (tree lines : List (List Char))
    (h : OrderedMatch tree lines) :
    ∃ i, ∃ hi : i < lines.length,
      (∃ p, tree.getLast? = some p ∧
        lineMatches p (lines.get ⟨i, hi⟩) = true) ∧
      replace_parameter new_value tree lines
        = lines.set i (rewriteLine new_value (lines.get ⟨i, hi⟩)) ∧
      ∀ j, j ≠ i →
        (replace_parameter new_value tree lines)[j]? = lines[j]? := by
  have hs := findMatchIdx_isSome_of_orderedMatch lines tree h
  obtain ⟨i, hi⟩ := Option.isSome_iff_exists.mp hs
  obtain ⟨hlt, heq, hterm⟩ := replace_parameter_eq_set new_value lines tree i hi
  refine ⟨i, hlt, hterm, heq, ?_⟩
  intro j hj
  rw [heq]
  exact List.getElem?_set_ne (Ne.symm hj)

/-- Witness for C3 on a one-line file `"key: 1\n"` and the path
`["key"]`. -/
theorem replace_parameter_rewrites_one_line_witness :
    ∃ i, ∃ hi : i < ([['k', 'e', 'y', ':', ' ', '1', '\n']] :
        List (List Char)).length,
      (∃ p, ([['k', 'e', 'y']] : List (List Char)).getLast? = some p ∧
        lineMatches p (([['k', 'e', 'y', ':', ' ', '1', '\n']] :
          List (List Char)).get ⟨i, hi⟩) = true) ∧
      replace_parameter ['2'] [['k', 'e', 'y']]
          [['k', 'e', 'y', ':', ' ', '1', '\n']]
        = ([['k', 'e', 'y', ':', ' ', '1', '\n']] : List (List Char)).set i
            (rewriteLine ['2']
              (([['k', 'e', 'y', ':', ' ', '1', '\n']] :
                List (List Char)).get ⟨i, hi⟩)) ∧
      ∀ j, j ≠ i →
        (replace_parameter ['2'] [['k', 'e', 'y']]
            [['k', 'e', 'y', ':', ' ', '1', '\n']])[j]?
          = ([['k', 'e', 'y', ':', ' ', '1', '\n']] :
              List (List Char))[j]? :=
  replace_parameter_rewrites_one_line ['2'] [['k', 'e', 'y']]
    [['k', 'e', 'y', ':', ' ', '1', '\n']]
    (OrderedMatch.last (by decide))

/-- C8: `replace_parameter` is atomic on failure.  When no ordered
match of all path components exists, the file's lines are completely
unchanged. -/
theorem replace_parameter_atomic_on_failure
    (new_value : List Char) (tree lines : List (List Char))
    (h : ¬ OrderedMatch tree lines) :
    replace_parameter new_value tree lines = lines := by
  cases hf : findMatchIdx tree lines with
  | none => exact replace_parameter_of_none new_value lines tree hf
  | some i => exact absurd (orderedMatch_of_findMatchIdx lines tree i hf) h

/-- Witness for C8 on a one-line file in which the parameter does not
occur. -/
theorem replace_parameter_atomic_on_failure_witness :
    replace_parameter ['2'] [['z', 'z']]
        [['k', 'e', 'y', ':', ' ', '1', '\n']]
      = [['k', 'e', 'y', ':', ' ', '1', '\n']] :=
  replace_parameter_atomic_on_failure ['2'] [['z', 'z']]
    [['k', 'e', 'y', ':', ' ', '1', '\n']]
    (fun hcon => by
      cases hcon with
      | last hml => exact absurd hml (by decide)
      | skip hsub => cases hsub)

/-- A YAML value as produced by `yaml.full_load`: a scalar, a
sequence, or a mapping (an association list of string keys). -/
inductive Yaml where
  | scalar : String → Yaml
  | seq : List Yaml → Yaml
  | map : List (String × Yaml) → Yaml

/-- `config[p]` for a string key `p`: succeeds only when `config` is a
mapping containing the key; any other lookup raises in Python and is
absorbed by the bare `except`, modelled by `none`. -/
def lookupKey (p : String) : List (String × Yaml) → Option Yaml
  | [] => none
  | (k, v) :: rest => if k = p then some v else lookupKey p rest

/-- `read_parameter` after loading the YAML: recurse through the
parameter tree to the final value; any failed component lookup is
absorbed by the bare `except` and yields `None`. -/
def read_parameter (config : Yaml) : List String → Option Yaml
  | [] => some config
  | p :: rest =>
    match config with
    | .map entries =>
      match lookupKey p entries with
      | some v => read_parameter v rest
      | none => none
    | _ => none

/-- Stated from the claim's words: `w` is the value reached from
`config` by following the path components in order. -/
inductive Follows : Yaml → List String → Yaml → Prop where
  | nil (c : Yaml) : Follows c [] c
  | step {entries p v rest w} : lookupKey p entries = some v →
      Follows v rest w → Follows (.map entries) (p :: rest) w

/-- C4: `read_parameter` never raises while traversing the path: it is
a total function returning exactly the value reached by following the
path components in order, and `none` whenever any component lookup
fails (the failure being absorbed by the bare `except`). -/
theorem read_parameter_total_correct (config : Yaml) (tree : List String) :
    (∀ v, read_parameter config tree = some v ↔ Follows config tree v) ∧
    ((¬ ∃ v, Follows config tree v) → read_parameter config tree = none) := by
  have main : ∀ (tree : List String) (config : Yaml) (v : Yaml),
      read_parameter config tree = some v ↔ Follows config tree v := by
    intro tree
    induction tree with
    | nil =>
      intro config v
      constructor
      · intro h
        obtain rfl : config = v := by
          simpa [read_parameter] using h
        exact Follows.nil config
      · intro h
        cases h
        rfl
    | cons p rest ih =>
      intro config v
      constructor
      · intro h
        match config with
        | .scalar s => simp [read_parameter] at h
        | .seq l => simp [read_parameter] at h
        | .map entries =>
          cases hk : lookupKey p entries with
          | none => simp [read_parameter, hk] at h
          | some w =>
            simp only [read_parameter, hk] at h
            exact Follows.step hk ((ih w v).mp h)
      · intro h
        cases h with
        | step hk hf =>
          simp only [read_parameter, hk]
          exact (ih _ _).mpr hf
  refine ⟨main tree config, ?_⟩
  intro hne
  cases hr : read_parameter config tree with
  | none => rfl
  | some v => exact absurd ⟨v, (main tree config v).mp hr⟩ hne

/-- Witness for C4: looking a key up in a scalar fails and yields
`none`. -/
theorem read_parameter_total_correct_witness :
    read_parameter (Yaml.scalar "a") ["k"] = none :=
  (read_parameter_total_correct (Yaml.scalar "a") ["k"]).2
    (fun hex => nomatch hex.choose_spec)

/-- The action `main` performs after parsing the flags. -/
inductive CliAction where
  | read : String → String → CliAction
  | repl : String → String → String → CliAction
deriving DecidableEq

/-- The parsed command line: `-f or --file` and `-p or --param` are required
strings, `-v or --value` an optional string defaulting to `None`. -/
structure Args where
  filepath : String
  param : String
  value : Option String
deriving DecidableEq

/-- The dispatch of `main` after `parse_args`: value omitted means
`read_parameter`, otherwise `replace_parameter`. -/
def main_dispatch (a : Args) : CliAction :=
  match a.value with
  | none => .read a.filepath a.param
  | some v => .repl a.filepath a.param v

/-- The argparse parser declared in `main`: three `store` options,
each taking one argument.  An option not in the declaration, or a
trailing flag with no argument, is an error. -/
def parseTokens : List String →
    Option String × Option String × Option String →
    Option (Option String × Option String × Option String)
  | [], acc => some acc
  | [_], _ => none
  | f :: v :: rest, acc =>
    if f = "-f" ∨ f = "--file" then
      parseTokens rest (some v, acc.2.1, acc.2.2)
    else if f = "-p" ∨ f = "--param" then
      parseTokens rest (acc.1, some v, acc.2.2)
    else if f = "-v" ∨ f = "--value" then
      parseTokens rest (acc.1, acc.2.1, some v)
    else none

/-- `parser.parse_args()`: parsing succeeds only when the required
`--file` and `--param` were supplied; `--value` defaults to `None`. -/
def parse_args (tokens : List String) : Option Args :=
  match parseTokens tokens (none, none, none) with
  | some (some f, some p, v) => some ⟨f, p, v⟩
  | _ => none

/-- A flag never seen on the command line leaves its accumulator
component untouched. -/
theorem parseTokens_components :
    ∀ (ts : List String) (acc r : Option String × Option String × Option String),
      parseTokens ts acc = some r →
      (("-f" ∉ ts ∧ "--file" ∉ ts) → r.1 = acc.1) ∧
      (("-p" ∉ ts ∧ "--param" ∉ ts) → r.2.1 = acc.2.1) ∧
      (("-v" ∉ ts ∧ "--value" ∉ ts) → r.2.2 = acc.2.2) := by
  intro ts acc
  induction ts, acc using parseTokens.induct with
  | case1 acc =>
    intro r h
    obtain rfl : acc = r := by simpa [parseTokens] using h
    exact ⟨fun _ => rfl, fun _ => rfl, fun _ => rfl⟩
  | case2 t x =>
    intro r h
    simp [parseTokens] at h
  | case3 f v rest acc hf ih =>
    intro r h
    simp only [parseTokens, if_pos hf] at h
    obtain ⟨ih1, ih2, ih3⟩ := ih r h
    refine ⟨?_, ?_, ?_⟩
    · rintro ⟨h1, h2⟩
      rcases hf with rfl | rfl
      · exact absurd (List.mem_cons_self _ _) h1
      · exact absurd (List.mem_cons_self _ _) h2
    · rintro ⟨h1, h2⟩
      exact ih2 ⟨fun hm => h1 (List.mem_cons_of_mem _ (List.mem_cons_of_mem _ hm)),
        fun hm => h2 (List.mem_cons_of_mem _ (List.mem_cons_of_mem _ hm))⟩
    · rintro ⟨h1, h2⟩
      exact ih3 ⟨fun hm => h1 (List.mem_cons_of_mem _ (List.mem_cons_of_mem _ hm)),
        fun hm => h2 (List.mem_cons_of_mem _ (List.mem_cons_of_mem _ hm))⟩
  | case4 f v rest acc hnf hp ih =>
    intro r h
    simp only [parseTokens, if_neg hnf, if_pos hp] at h
    obtain ⟨ih1, ih2, ih3⟩ := ih r h
    refine ⟨?_, ?_, ?_⟩
    · rintro ⟨h1, h2⟩
      exact ih1 ⟨fun hm => h1 (List.mem_cons_of_mem _ (List.mem_cons_of_mem _ hm)),
        fun hm => h2 (List.mem_cons_of_mem _ (List.mem_cons_of_mem _ hm))⟩
    · rintro ⟨h1, h2⟩
      rcases hp with rfl | rfl
      · exact absurd (List.mem_cons_self _ _) h1
      · exact absurd (List.mem_cons_self _ _) h2
    · rintro ⟨h1, h2⟩
      exact ih3 ⟨fun hm => h1 (List.mem_cons_of_mem _ (List.mem_cons_of_mem _ hm)),
        fun hm => h2 (List.mem_cons_of_mem _ (List.mem_cons_of_mem _ hm))⟩
  | case5 f v rest acc hnf hnp hv ih =>
    intro r h
    simp only [parseTokens, if_neg hnf, if_neg hnp, if_pos hv] at h
    obtain ⟨ih1, ih2, ih3⟩ := ih r h
    refine ⟨?_, ?_, ?_⟩
    · rintro ⟨h1, h2⟩
      exact ih1 ⟨fun hm => h1 (List.mem_cons_of_mem _ (List.mem_cons_of_mem _ hm)),
        fun hm => h2 (List.mem_cons_of_mem _ (List.mem_cons_of_mem _ hm))⟩
    · rintro ⟨h1, h2⟩
      exact ih2 ⟨fun hm => h1 (List.mem_cons_of_mem _ (List.mem_cons_of_mem _ hm)),
        fun hm => h2 (List.mem_cons_of_mem _ (List.mem_cons_of_mem _ hm))⟩
    · rintro ⟨h1, h2⟩
      rcases hv with rfl | rfl
      · exact absurd (List.mem_cons_self _ _) h1
      · exact absurd (List.mem_cons_self _ _) h2
  | case6 f v rest acc hnf hnp hnv =>
    intro r h
    simp [parseTokens, if_neg hnf, if_neg hnp, if_neg hnv] at h

/-- C6: the CLI consists of `-f or --file` and `-p or --param` (required
strings) and `-v or --value` (optional, defaulting to `None`); an
invocation without the value flag performs the read operation and one
with it performs the replace operation, with exactly the given file,
parameter and value. -/
theorem cli_flags_and_dispatch (ts : List String) :
    ((("-f" ∉ ts ∧ "--file" ∉ ts) ∨ ("-p" ∉ ts ∧ "--param" ∉ ts)) →
      parse_args ts = none) ∧
    (∀ a, parse_args ts = some a →
      (("-v" ∉ ts ∧ "--value" ∉ ts) →
        a.value = none ∧ main_dispatch a = .read a.filepath a.param) ∧
      (∀ v, a.value = some v →
        main_dispatch a = .repl a.filepath a.param v)) := by
  constructor
  · intro hreq
    unfold parse_args
    cases hp : parseTokens ts (none, none, none) with
    | none => rfl
    | some r =>
      obtain ⟨c1, c2, c3⟩ := parseTokens_components ts (none, none, none) r hp
      obtain ⟨r1, r2, r3⟩ := r
      rcases hreq with h | h
      · have h0 : r1 = none := c1 h
        subst h0
        rfl
      · have h0 : r2 = none := c2 h
        subst h0
        cases r1 <;> rfl
  · intro a hp
    rcases hq : parseTokens ts (none, none, none) with _ | ⟨r1, r2, r3⟩
    · simp [parse_args, hq] at hp
    · rcases r1 with _ | f
      · simp [parse_args, hq] at hp
      · rcases r2 with _ | p
        · simp [parse_args, hq] at hp
        · simp only [parse_args, hq] at hp
          obtain rfl : Args.mk f p r3 = a := by
            simpa using hp
          constructor
          · intro hv
            have h3 : r3 = none :=
              (parseTokens_components ts (none, none, none)
                (some f, some p, r3) hq).2.2 hv
            subst h3
            exact ⟨rfl, rfl⟩
          · intro v hv
            have h3 : r3 = some v := hv
            subst h3
            rfl

/-- Witness for C6: a call missing the required `--file` flag fails to
parse, and a parsed call without `--value` dispatches to the read
operation. -/
theorem cli_flags_and_dispatch_witness :
    parse_args ["-p", "b"] = none ∧
    main_dispatch ⟨"a", "b", none⟩ = CliAction.read "a" "b" :=
  ⟨(cli_flags_and_dispatch ["-p", "b"]).1 (Or.inl (by decide)),
   (((cli_flags_and_dispatch ["-f", "a", "-p", "b"]).2 ⟨"a", "b", none⟩
      (by decide)).1 (by decide)).2⟩

end ChangeArgInYaml

namespace PlaceRacks

/-- The outcome of attempting one rack in `place_racks_startup`: the
prim was obtained and its transform set (`ok`), `get_prim_at_path`
returned nothing (`prim_missing`), or an exception was raised and
caught by the `except` branch (`error`).  The Isaac Sim API calls are
abstracted by these per-rack outcomes. -/
inductive PlaceOutcome where
  | ok
  | prim_missing
  | error
deriving DecidableEq

/-- The rack placement loop: every rack is attempted in order (an
exception is printed and the loop continues with the remaining racks)
and `successful` is incremented exactly for the `ok` outcomes; the
final report prints `successful` out of the total number of racks. -/
def place_racks_loop (outcomes : List PlaceOutcome) : ℕ :=
  outcomes.foldl (fun successful o =>
    match o with
    | .ok => successful + 1
    | _ => successful) 0

/-- The running `successful` counter only adds the later `ok`s. -/
theorem place_racks_loop_shift :
    ∀ (os : List PlaceOutcome) (n : ℕ),
      os.foldl (fun successful o =>
        match o with
        | PlaceOutcome.ok => successful + 1
        | _ => successful) n = n + os.count PlaceOutcome.ok := by
  intro os
  induction os with
  | nil => intro n; simp
  | cons o t ih =>
    intro n
    cases o <;> simp [ih, List.count_cons] <;> omega

/-- C7: rack placement tolerates partial failure.  The successful
counter counts exactly the racks whose prim was obtained, it never
exceeds the number of racks in the report, and an error on one rack
never prevents the placement of the racks after it: the loop's result
over `pre ++ error :: post` is the sum of its results over `pre` and
over `post`. -/
theorem place_racks_tolerates_failure
    (outcomes pre post : List PlaceOutcome) :
    place_racks_loop outcomes = outcomes.count PlaceOutcome.ok ∧
    place_racks_loop outcomes ≤ outcomes.length ∧
    place_racks_loop (pre ++ PlaceOutcome.error :: post)
      = place_racks_loop pre + place_racks_loop post := by
  have hc : ∀ os : List PlaceOutcome,
      place_racks_loop os = os.count PlaceOutcome.ok := by
    intro os
    simpa using place_racks_loop_shift os 0
  refine ⟨hc outcomes, ?_, ?_⟩
  · rw [hc]
    exact List.count_le_length _ _
  · rw [hc, hc, hc, List.count_append, List.count_cons]
    simp

end PlaceRacks
